import Mathlib

/-!
Shallow embedding of `src/geometry/capsule.rs` (the `Capsule` shape of the
rapier physics engine, 3-dimensional `dim3` configuration), over the real
numbers as the idealisation of `f32` arithmetic.

External collaborators (the segment primitive, the rigid-transform utility,
nalgebra's `rotation_between`, the generic support-map ray-cast algorithm)
are not part of the source file; they are modelled from the specification's
interface contracts, each marked `Modelled from the spec:`.
-/

open scoped Classical

set_option linter.unusedVariables false

namespace Rapier

/-- A 3-dimensional vector (also used for points), idealising `Vector<f32>` /
`Point<f32>` over the reals. -/
@[ext]
structure V3 where
  x : ℝ
  y : ℝ
  z : ℝ

namespace V3

def zero : V3 := ⟨0, 0, 0⟩

instance : Add V3 := ⟨fun a b => ⟨a.x + b.x, a.y + b.y, a.z + b.z⟩⟩
instance : Sub V3 := ⟨fun a b => ⟨a.x - b.x, a.y - b.y, a.z - b.z⟩⟩
instance : Neg V3 := ⟨fun a => ⟨-a.x, -a.y, -a.z⟩⟩
instance : SMul ℝ V3 := ⟨fun k a => ⟨k * a.x, k * a.y, k * a.z⟩⟩

@[simp] lemma add_def (a b : V3) : a + b = ⟨a.x + b.x, a.y + b.y, a.z + b.z⟩ := rfl
@[simp] lemma sub_def (a b : V3) : a - b = ⟨a.x - b.x, a.y - b.y, a.z - b.z⟩ := rfl
@[simp] lemma neg_def (a : V3) : -a = ⟨-a.x, -a.y, -a.z⟩ := rfl
@[simp] lemma smul_def (k : ℝ) (a : V3) : k • a = ⟨k * a.x, k * a.y, k * a.z⟩ := rfl

/-- Dot product. -/
def dot (a b : V3) : ℝ := a.x * b.x + a.y * b.y + a.z * b.z

/-- Cross product. -/
def cross (a b : V3) : V3 :=
  ⟨a.y * b.z - a.z * b.y, a.z * b.x - a.x * b.z, a.x * b.y - a.y * b.x⟩

/-- Squared Euclidean norm. -/
def normSq (a : V3) : ℝ := a.x * a.x + a.y * a.y + a.z * a.z

/-- Euclidean norm, `nalgebra`'s `norm`. -/
noncomputable def norm (a : V3) : ℝ := Real.sqrt a.normSq

/-- `nalgebra`'s `normalize`: division of the vector by its norm. -/
noncomputable def normalize (a : V3) : V3 := a.norm⁻¹ • a

/-- The canonical `x` axis, `Vector::x()`. -/
def xAxis : V3 := ⟨1, 0, 0⟩

/-- The canonical `y` axis, `Vector::y()` / `Vector::y_axis()`. -/
def yAxis : V3 := ⟨0, 1, 0⟩

/-- The canonical `z` axis, `Vector::z()`. -/
def zAxis : V3 := ⟨0, 0, 1⟩

lemma normSq_nonneg (a : V3) : 0 ≤ a.normSq := by
  have hx := mul_self_nonneg a.x
  have hy := mul_self_nonneg a.y
  have hz := mul_self_nonneg a.z
  unfold normSq; linarith

lemma norm_nonneg (a : V3) : 0 ≤ a.norm := Real.sqrt_nonneg _

lemma norm_sq (a : V3) : a.norm * a.norm = a.normSq :=
  Real.mul_self_sqrt a.normSq_nonneg

lemma normSq_eq_zero_iff (a : V3) : a.normSq = 0 ↔ a = zero := by
  constructor
  · intro h
    have hx := mul_self_nonneg a.x
    have hy := mul_self_nonneg a.y
    have hz := mul_self_nonneg a.z
    have hx0 : a.x * a.x = 0 := by unfold normSq at h; linarith
    have hy0 : a.y * a.y = 0 := by unfold normSq at h; linarith
    have hz0 : a.z * a.z = 0 := by unfold normSq at h; linarith
    ext
    · exact mul_self_eq_zero.1 hx0
    · exact mul_self_eq_zero.1 hy0
    · exact mul_self_eq_zero.1 hz0
  · rintro rfl; simp [normSq, zero]

lemma norm_eq_zero_iff (a : V3) : a.norm = 0 ↔ a = zero := by
  rw [norm, Real.sqrt_eq_zero (normSq_nonneg a)]
  exact normSq_eq_zero_iff a

lemma norm_pos_of_ne_zero {a : V3} (h : a ≠ zero) : 0 < a.norm := by
  rcases lt_or_eq_of_le (norm_nonneg a) with h' | h'
  · exact h'
  · exact absurd ((norm_eq_zero_iff a).1 h'.symm) h

/-- Cauchy–Schwarz for the concrete 3-dimensional dot product. -/
lemma dot_le_norm_mul_norm (a b : V3) : a.dot b ≤ a.norm * b.norm := by
  have hsq : (a.dot b) * (a.dot b) ≤ a.normSq * b.normSq := by
    unfold dot normSq
    nlinarith [sq_nonneg (a.x * b.y - a.y * b.x), sq_nonneg (a.x * b.z - a.z * b.x),
      sq_nonneg (a.y * b.z - a.z * b.y)]
  have h1 : a.dot b ≤ |a.dot b| := le_abs_self _
  have h2 : |a.dot b| = Real.sqrt ((a.dot b) * (a.dot b)) :=
    (Real.sqrt_mul_self_eq_abs _).symm
  have h3 : Real.sqrt ((a.dot b) * (a.dot b)) ≤ Real.sqrt (a.normSq * b.normSq) :=
    Real.sqrt_le_sqrt hsq
  have h4 : Real.sqrt (a.normSq * b.normSq) = a.norm * b.norm :=
    Real.sqrt_mul (normSq_nonneg a) _
  calc a.dot b ≤ |a.dot b| := h1
    _ = Real.sqrt ((a.dot b) * (a.dot b)) := h2
    _ ≤ Real.sqrt (a.normSq * b.normSq) := h3
    _ = a.norm * b.norm := h4

/-- Each coordinate is bounded by the norm in absolute value. -/
lemma abs_x_le_norm (a : V3) : |a.x| ≤ a.norm := by
  rw [← Real.sqrt_mul_self_eq_abs, norm]
  refine Real.sqrt_le_sqrt ?_
  have hy := mul_self_nonneg a.y
  have hz := mul_self_nonneg a.z
  unfold normSq; linarith

lemma abs_y_le_norm (a : V3) : |a.y| ≤ a.norm := by
  rw [← Real.sqrt_mul_self_eq_abs, norm]
  refine Real.sqrt_le_sqrt ?_
  have hx := mul_self_nonneg a.x
  have hz := mul_self_nonneg a.z
  unfold normSq; linarith

lemma abs_z_le_norm (a : V3) : |a.z| ≤ a.norm := by
  rw [← Real.sqrt_mul_self_eq_abs, norm]
  refine Real.sqrt_le_sqrt ?_
  have hx := mul_self_nonneg a.x
  have hy := mul_self_nonneg a.y
  unfold normSq; linarith

lemma dot_smul_right (a : V3) (k : ℝ) (b : V3) : a.dot (k • b) = k * a.dot b := by
  simp [dot]; ring

lemma dot_comm (a b : V3) : a.dot b = b.dot a := by
  simp [dot]; ring

lemma dot_add_right (a b c : V3) : a.dot (b + c) = a.dot b + a.dot c := by
  simp [dot]; ring

lemma dot_sub_right (a b c : V3) : a.dot (b - c) = a.dot b - a.dot c := by
  simp [dot]; ring

lemma dot_smul_left (k : ℝ) (a b : V3) : (k • a).dot b = k * a.dot b := by
  simp [dot]; ring

lemma dot_add_left (a b c : V3) : (a + b).dot c = a.dot c + b.dot c := by
  simp [dot]; ring

lemma dot_sub_left (a b c : V3) : (a - b).dot c = a.dot c - b.dot c := by
  simp [dot]; ring

lemma dot_zero_right (a : V3) : a.dot zero = 0 := by
  simp [dot, zero]

lemma dot_self_eq_normSq (a : V3) : a.dot a = a.normSq := rfl

lemma sub_self_eq_zero (a : V3) : a - a = zero := by
  ext <;> simp [zero]

lemma norm_zero : (zero : V3).norm = 0 := by
  simp [norm, normSq, zero]

end V3

/-- Modelled from the spec: the rigid-transform utility's rotation component,
as a 3×3 real matrix (`Rotation<f32>`). -/
@[ext]
structure Mat3 where
  m11 : ℝ
  m12 : ℝ
  m13 : ℝ
  m21 : ℝ
  m22 : ℝ
  m23 : ℝ
  m31 : ℝ
  m32 : ℝ
  m33 : ℝ

namespace Mat3

/-- The identity rotation, `Rotation::identity()`. -/
def id : Mat3 := ⟨1, 0, 0, 0, 1, 0, 0, 0, 1⟩

/-- Matrix–vector application. -/
def apply (r : Mat3) (v : V3) : V3 :=
  ⟨r.m11 * v.x + r.m12 * v.y + r.m13 * v.z,
   r.m21 * v.x + r.m22 * v.y + r.m23 * v.z,
   r.m31 * v.x + r.m32 * v.y + r.m33 * v.z⟩

/-- Transpose, the inverse of an orthogonal rotation matrix. -/
def transpose (r : Mat3) : Mat3 :=
  ⟨r.m11, r.m21, r.m31, r.m12, r.m22, r.m32, r.m13, r.m23, r.m33⟩

@[simp] lemma id_apply (v : V3) : Mat3.id.apply v = v := by
  simp [apply, id]

end Mat3

/-- Modelled from the spec: the rigid-transform utility (`Isometry<f32>`):
a rotation followed by a translation. -/
structure Iso where
  rotation : Mat3
  translation : V3

namespace Iso

/-- `Isometry::identity()`. -/
def identity : Iso := ⟨Mat3.id, V3.zero⟩

/-- Application to a point (`pos * point`): rotate, then translate. -/
def applyPoint (m : Iso) (p : V3) : V3 := m.rotation.apply p + m.translation

/-- Application to a vector (`pos * vector`): rotation only. -/
def applyVector (m : Iso) (v : V3) : V3 := m.rotation.apply v

@[simp] lemma identity_applyPoint (p : V3) : Iso.identity.applyPoint p = p := by
  simp [applyPoint, identity, V3.zero]

@[simp] lemma identity_applyVector (v : V3) : Iso.identity.applyVector v = v := by
  simp [applyVector, identity]

end Iso

/-- `ncollide::shape::Segment<f32>`: a straight segment between two points. -/
@[ext]
structure Segment where
  a : V3
  b : V3

/-- `Segment::new`. -/
def Segment.new (a b : V3) : Segment := ⟨a, b⟩

/-- Modelled from the spec: the external segment primitive's pose-aware
point projection, `Segment::project_point(m, pt, solid) -> (point, inside)`.
It returns the closest point of the transformed segment; the `solid` flag is
irrelevant for a segment (no interior) and only the projected point is read
by the capsule code. -/
noncomputable def Segment.project_point (seg : Segment) (m : Iso) (pt : V3)
    (solid : Bool) : V3 :=
  if (m.applyPoint seg.b - m.applyPoint seg.a).normSq = 0 then
    m.applyPoint seg.a
  else
    m.applyPoint seg.a +
      (max 0 (min 1 (((pt - m.applyPoint seg.a).dot
          (m.applyPoint seg.b - m.applyPoint seg.a)) /
        (m.applyPoint seg.b - m.applyPoint seg.a).normSq))) •
        (m.applyPoint seg.b - m.applyPoint seg.a)

/-- Modelled from the spec: `Segment::direction()`, the normalized segment
axis when the segment is non-degenerate. -/
noncomputable def Segment.direction (seg : Segment) : Option V3 :=
  if seg.b - seg.a = V3.zero then none else some (seg.b - seg.a).normalize

/-- `AABB`: an axis-aligned bounding box given by its two extreme corners. -/
@[ext]
structure AABB where
  mins : V3
  maxs : V3

/-- `AABB::new`. -/
def AABB.new (mins maxs : V3) : AABB := ⟨mins, maxs⟩

/-- Componentwise order on points, used to state box membership. -/
def V3.le (a b : V3) : Prop := a.x ≤ b.x ∧ a.y ≤ b.y ∧ a.z ≤ b.z

/-- Membership in an axis-aligned box. -/
def AABB.contains (box : AABB) (p : V3) : Prop := box.mins.le p ∧ p.le box.maxs

/-- `ncollide::shape::FeatureId`. -/
inductive FeatureId where
  | Vertex (n : ℕ)
  | Edge (n : ℕ)
  | Face (n : ℕ)
  | Unknown
deriving DecidableEq

/-- The query `Ray` (origin and direction); from the repository's geometry
module, modelled from the spec. -/
structure Ray where
  origin : V3
  dir : V3

/-- Modelled from the spec: `Ray::inverse_transform_by(m)` maps the ray into
the local frame: the inverse rigid motion (transposed rotation after
untranslating) on the origin, the inverse rotation on the direction. -/
def Ray.inverse_transform_by (ray : Ray) (m : Iso) : Ray :=
  ⟨m.rotation.transpose.apply (ray.origin - m.translation),
   m.rotation.transpose.apply ray.dir⟩

/-- `RayIntersection`: time of impact and surface normal. -/
structure RayIntersection where
  toi : ℝ
  normal : V3

/-- `PointProjection<f32>`: the projected point together with the flag
telling whether the original point was inside the solid volume. The flag is
a proposition because its value is a comparison of real magnitudes. -/
structure PointProjection where
  is_inside : Prop
  point : V3

/-- `PointProjection::new`. -/
def PointProjection.new (is_inside : Prop) (point : V3) : PointProjection :=
  ⟨is_inside, point⟩

/-- `f32::default_epsilon()` (= `f32::EPSILON` = 2⁻²³), the normalizability
threshold used by `project_point`. -/
noncomputable def f32_default_epsilon : ℝ := 1 / 8388608

/-- `Capsule`: a round segment (`src/geometry/capsule.rs`). -/
@[ext]
structure Capsule where
  segment : Segment
  radius : ℝ

namespace Capsule

/-- `Capsule::new`. -/
def new (a b : V3) (radius : ℝ) : Capsule := ⟨Segment.new a b, radius⟩

/-- `Capsule::new_x`. -/
def new_x (half_height radius : ℝ) : Capsule :=
  new (-(half_height • V3.xAxis)) (half_height • V3.xAxis) radius

/-- `Capsule::new_y`. -/
def new_y (half_height radius : ℝ) : Capsule :=
  new (-(half_height • V3.yAxis)) (half_height • V3.yAxis) radius

/-- `Capsule::new_z` (`dim3`). -/
def new_z (half_height radius : ℝ) : Capsule :=
  new (-(half_height • V3.zAxis)) (half_height • V3.zAxis) radius

/-- `Capsule::aabb`: transform the endpoints, take the componentwise
min/max, expand by the radius on every axis. -/
noncomputable def aabb (c : Capsule) (pos : Iso) : AABB :=
  AABB.new
    ⟨min (pos.applyPoint c.segment.a).x (pos.applyPoint c.segment.b).x -
        c.radius,
      min (pos.applyPoint c.segment.a).y (pos.applyPoint c.segment.b).y -
        c.radius,
      min (pos.applyPoint c.segment.a).z (pos.applyPoint c.segment.b).z -
        c.radius⟩
    ⟨max (pos.applyPoint c.segment.a).x (pos.applyPoint c.segment.b).x +
        c.radius,
      max (pos.applyPoint c.segment.a).y (pos.applyPoint c.segment.b).y +
        c.radius,
      max (pos.applyPoint c.segment.a).z (pos.applyPoint c.segment.b).z +
        c.radius⟩

/-- `Capsule::height`. -/
noncomputable def height (c : Capsule) : ℝ := (c.segment.b - c.segment.a).norm

/-- `Capsule::half_height`. -/
noncomputable def half_height (c : Capsule) : ℝ := c.height / 2

/-- `Capsule::center`. -/
noncomputable def center (c : Capsule) : V3 :=
  (1 / 2 : ℝ) • (c.segment.a + c.segment.b)

/-- `Capsule::transform_by`. -/
def transform_by (c : Capsule) (pos : Iso) : Capsule :=
  new (pos.applyPoint c.segment.a) (pos.applyPoint c.segment.b) c.radius

/-- The set of points of a capsule placed by its local data: all points at
distance at most `radius` from the segment. -/
def mem (c : Capsule) (p : V3) : Prop :=
  ∃ t : ℝ, 0 ≤ t ∧ t ≤ 1 ∧
    (p - (c.segment.a + t • (c.segment.b - c.segment.a))).norm ≤ c.radius

end Capsule

/-- Rodrigues' rotation matrix `I + sinθ·K(u) + (1−cosθ)·K(u)²` about the
unit axis `u`, with `d = cosθ` and `s = sinθ`; the algebraic form of the
axis-angle rotation nalgebra builds inside `rotation_between`. -/
def rodrigues (u : V3) (d s : ℝ) : Mat3 :=
  ⟨1 + (1 - d) * (-(u.z * u.z) - u.y * u.y),
   -(s * u.z) + (1 - d) * (u.x * u.y),
   s * u.y + (1 - d) * (u.x * u.z),
   s * u.z + (1 - d) * (u.x * u.y),
   1 + (1 - d) * (-(u.x * u.x) - u.z * u.z),
   -(s * u.x) + (1 - d) * (u.y * u.z),
   -(s * u.y) + (1 - d) * (u.x * u.z),
   s * u.x + (1 - d) * (u.y * u.z),
   1 + (1 - d) * (-(u.x * u.x) - u.y * u.y)⟩

/-- Modelled from the spec: nalgebra's `Rotation::rotation_between(a, b)`,
the rotation aligning `a` with `b`. If either input is not normalizable the
identity is returned; otherwise, with unit vectors `na`, `nb` and cross
product `c`: a rotation about `c` when `c` is normalizable, the identity
when the vectors point the same way, and `None` (undefined rotation) when
they are exactly antiparallel. -/
noncomputable def rotation_between (a b : V3) : Option Mat3 :=
  if a = V3.zero ∨ b = V3.zero then some Mat3.id
  else
    if a.normalize.cross b.normalize = V3.zero then
      if a.normalize.dot b.normalize < 0 then none else some Mat3.id
    else
      some (rodrigues (a.normalize.cross b.normalize).normalize
        (a.normalize.dot b.normalize) (a.normalize.cross b.normalize).norm)

namespace Capsule

/-- `Capsule::rotation_wrt_y` (`dim3`): flip `b - a` when its `y` component
is negative, then rotate `Y` onto it, falling back to the identity. -/
noncomputable def rotation_wrt_y (c : Capsule) : Mat3 :=
  (rotation_between V3.yAxis
    (if (c.segment.b - c.segment.a).y < 0 then -(c.segment.b - c.segment.a)
      else c.segment.b - c.segment.a)).getD Mat3.id

/-- `Capsule::transform_wrt_y`. -/
noncomputable def transform_wrt_y (c : Capsule) : Iso :=
  ⟨c.rotation_wrt_y, c.center⟩

/-- `Capsule::local_support_point_toward` (the `SupportMap` impl): the
endpoint with the strictly larger dot product — `b` on ties — plus the
radius along the given unit direction. -/
noncomputable def local_support_point_toward (c : Capsule) (dir : V3) : V3 :=
  if dir.dot c.segment.a > dir.dot c.segment.b then
    c.segment.a + c.radius • dir
  else
    c.segment.b + c.radius • dir

/-- `Capsule::local_support_point`: normalize the direction (threshold `0`),
falling back to the canonical `y` axis. -/
noncomputable def local_support_point (c : Capsule) (dir : V3) : V3 :=
  c.local_support_point_toward
    (if dir = V3.zero then V3.yAxis else dir.normalize)

end Capsule

/-- Modelled from the spec: `WBasis::orthonormal_basis()[0]` of a unit
vector `u` — the first vector of a deterministically chosen orthonormal
basis of the plane orthogonal to `u`. -/
noncomputable def orthonormal_basis0 (u : V3) : V3 :=
  if |u.x| > |u.z| then
    (Real.sqrt (u.x * u.x + u.y * u.y))⁻¹ • ⟨-u.y, u.x, 0⟩
  else
    (Real.sqrt (u.y * u.y + u.z * u.z))⁻¹ • ⟨0, -u.z, u.y⟩

namespace Capsule

/-- `Capsule::project_point` (the `PointQuery` impl, `dim3` branch):
project onto the segment, then branch on the normalizability of the offset
`pt - proj` against `f32::default_epsilon()`. -/
noncomputable def project_point (c : Capsule) (m : Iso) (pt : V3)
    (solid : Bool) : PointProjection :=
  if (pt - (Segment.new c.segment.a c.segment.b).project_point m pt
      solid).norm > f32_default_epsilon then
    if solid = true ∧
        (pt - (Segment.new c.segment.a c.segment.b).project_point m pt
          solid).norm ≤ c.radius then
      PointProjection.new True pt
    else
      PointProjection.new
        ((pt - (Segment.new c.segment.a c.segment.b).project_point m pt
          solid).norm ≤ c.radius)
        ((Segment.new c.segment.a c.segment.b).project_point m pt solid +
          c.radius •
            (pt - (Segment.new c.segment.a c.segment.b).project_point m pt
              solid).normalize)
  else if solid = true then PointProjection.new True pt
  else
    match (Segment.new c.segment.a c.segment.b).direction with
    | some dir =>
        PointProjection.new True
          ((Segment.new c.segment.a c.segment.b).project_point m pt solid +
            c.radius • (m.applyVector (orthonormal_basis0 dir)))
    | none =>
        PointProjection.new True
          ((Segment.new c.segment.a c.segment.b).project_point m pt solid +
            c.radius • V3.yAxis)

/-- `Capsule::project_point_with_feature`: hollow projection tagged with the
single constant feature `FeatureId::Face(0)`. -/
noncomputable def project_point_with_feature (c : Capsule) (m : Iso)
    (pt : V3) : PointProjection × FeatureId :=
  (c.project_point m pt false, FeatureId.Face 0)

/-- `Capsule::toi_and_normal_with_ray` (the `RayCast` impl), parameterized
by the external generic support-map ray-cast algorithm (ncollide's
`ray_intersection_with_support_map_with_params`, a black box per the spec):
inverse-transform the ray to local space, invoke the algorithm with the
identity pose, and rotate a hit's normal back to world space. -/
def toi_and_normal_with_ray
    (algo : Iso → Capsule → Ray → ℝ → Bool → Option RayIntersection)
    (c : Capsule) (m : Iso) (ray : Ray) (max_toi : ℝ) (solid : Bool) :
    Option RayIntersection :=
  (algo Iso.identity c (ray.inverse_transform_by m) max_toi solid).map
    fun res => { res with normal := m.applyVector res.normal }

end Capsule

/-! ### Evaluation helpers -/

lemma norm_xAxis : V3.xAxis.norm = 1 := by
  simp [V3.norm, V3.normSq, V3.xAxis]

lemma norm_yAxis : V3.yAxis.norm = 1 := by
  simp [V3.norm, V3.normSq, V3.yAxis]

lemma normalize_xAxis : V3.xAxis.normalize = V3.xAxis := by
  simp [V3.normalize, norm_xAxis]

lemma normalize_yAxis : V3.yAxis.normalize = V3.yAxis := by
  simp [V3.normalize, norm_yAxis]

lemma norm_two_x : (V3.mk 2 0 0).norm = 2 := by
  rw [V3.norm, V3.normSq]
  rw [show (2 * 2 + 0 * 0 + 0 * 0 : ℝ) = 2 ^ 2 by norm_num]
  exact Real.sqrt_sq (by norm_num)

lemma normalize_two_x : (V3.mk 2 0 0).normalize = ⟨1, 0, 0⟩ := by
  rw [V3.normalize, norm_two_x]
  simp

lemma scenario_seg_proj (solid : Bool) :
    (Segment.new (Capsule.new_x 1 (1/2)).segment.a
        (Capsule.new_x 1 (1/2)).segment.b).project_point
      Iso.identity ⟨3, 0, 0⟩ solid = ⟨1, 0, 0⟩ := by
  simp only [Segment.project_point, Segment.new, Capsule.new_x, Capsule.new,
    Iso.identity, Iso.applyPoint, Mat3.id, Mat3.apply, V3.zero, V3.xAxis,
    V3.add_def, V3.sub_def, V3.neg_def, V3.smul_def, V3.normSq, V3.dot]
  norm_num

lemma V3.norm_smul (k : ℝ) (v : V3) : (k • v).norm = |k| * v.norm := by
  rw [V3.norm, V3.norm, show (k • v).normSq = k ^ 2 * v.normSq by
    simp [V3.normSq]; ring]
  rw [Real.sqrt_mul (sq_nonneg k), Real.sqrt_sq_eq_abs]

/-- The fallback basis vector is orthogonal to its input, for every input. -/
lemma orthonormal_basis0_dot (u : V3) : (orthonormal_basis0 u).dot u = 0 := by
  unfold orthonormal_basis0
  split_ifs <;> simp [V3.dot] <;> ring

/-- The fallback basis vector of a unit vector is itself a unit vector. -/
lemma orthonormal_basis0_norm (u : V3) (hu : u.norm = 1) :
    (orthonormal_basis0 u).norm = 1 := by
  have hsq : u.normSq = 1 := by rw [← u.norm_sq, hu]; norm_num
  unfold orthonormal_basis0
  split_ifs with hbr
  · have hx : u.x ≠ 0 := by
      intro h0
      rw [h0] at hbr
      simp at hbr
      exact absurd hbr (not_lt.2 (abs_nonneg _))
    have hpos : 0 < u.x * u.x + u.y * u.y := by
      have := mul_self_pos.2 hx
      nlinarith [mul_self_nonneg u.y]
    have hs : Real.sqrt (u.x * u.x + u.y * u.y) > 0 := Real.sqrt_pos.2 hpos
    rw [V3.norm_smul, abs_inv, abs_of_pos hs]
    rw [show (V3.mk (-u.y) u.x 0).norm = Real.sqrt (u.x * u.x + u.y * u.y) by
      rw [V3.norm, V3.normSq]; congr 1; ring]
    field_simp
  · have hpos : 0 < u.y * u.y + u.z * u.z := by
      rcases eq_or_ne u.z 0 with hz | hz
      · have hx : u.x = 0 := by
          rw [hz] at hbr
          simpa using hbr
        have hy : u.y * u.y = 1 := by
          rw [V3.normSq, hx, hz] at hsq; linarith
        nlinarith [mul_self_nonneg u.z]
      · have := mul_self_pos.2 hz
        nlinarith [mul_self_nonneg u.y]
    have hs : Real.sqrt (u.y * u.y + u.z * u.z) > 0 := Real.sqrt_pos.2 hpos
    rw [V3.norm_smul, abs_inv, abs_of_pos hs]
    rw [show (V3.mk 0 (-u.z) u.y).norm = Real.sqrt (u.y * u.y + u.z * u.z) by
      rw [V3.norm, V3.normSq]; congr 1; ring]
    field_simp

lemma norm_normalize {v : V3} (hv : v ≠ V3.zero) : v.normalize.norm = 1 := by
  rw [V3.normalize, V3.norm_smul, abs_inv,
    abs_of_pos (V3.norm_pos_of_ne_zero hv),
    inv_mul_cancel₀ (ne_of_gt (V3.norm_pos_of_ne_zero hv))]

lemma norm_zero_vec : (V3.mk 0 0 0).norm = 0 := by
  simp [V3.norm, V3.normSq]

lemma obasis_x : orthonormal_basis0 ⟨1, 0, 0⟩ = ⟨0, 1, 0⟩ := by
  unfold orthonormal_basis0
  rw [if_pos (by norm_num)]
  norm_num

lemma norm_half_y : (V3.mk 0 (1/2) 0).norm = 1/2 := by
  rw [V3.norm, V3.normSq]
  rw [show (0 * 0 + 1/2 * (1/2) + 0 * 0 : ℝ) = (1/2) ^ 2 by norm_num]
  exact Real.sqrt_sq (by norm_num)

lemma scenario0_seg_proj (solid : Bool) :
    (Segment.new (Capsule.new_x 1 (1/2)).segment.a
        (Capsule.new_x 1 (1/2)).segment.b).project_point
      Iso.identity ⟨0, 0, 0⟩ solid = ⟨0, 0, 0⟩ := by
  simp only [Segment.project_point, Segment.new, Capsule.new_x, Capsule.new,
    Iso.identity, Iso.applyPoint, Mat3.id, Mat3.apply, V3.zero, V3.xAxis,
    V3.add_def, V3.sub_def, V3.neg_def, V3.smul_def, V3.normSq, V3.dot]
  norm_num

lemma scenario_direction :
    (Segment.new (Capsule.new_x 1 (1/2)).segment.a
        (Capsule.new_x 1 (1/2)).segment.b).direction = some ⟨1, 0, 0⟩ := by
  have hba : (Segment.new (Capsule.new_x 1 (1/2)).segment.a
      (Capsule.new_x 1 (1/2)).segment.b).b -
      (Segment.new (Capsule.new_x 1 (1/2)).segment.a
        (Capsule.new_x 1 (1/2)).segment.b).a = V3.mk 2 0 0 := by
    simp [Segment.new, Capsule.new_x, Capsule.new, V3.xAxis]
    norm_num
  unfold Segment.direction
  rw [hba, if_neg (by intro h; have := congrArg V3.x h; simp [V3.zero] at this),
    normalize_two_x]

/-! ### Claims -/

/-- C3: for every direction vector `dir`, `local_support_point` returns the
endpoint of the segment with the larger dot product with the (normalized)
direction, plus `radius` times the normalized direction; when `dir` cannot
be normalized (over the reals, threshold `0`: the zero vector) the canonical
`y` axis is substituted as the direction, so the function is total and
deterministic for every input vector. -/
theorem C3_local_support_point (c : Capsule) (dir : V3) :
    (dir ≠ V3.zero → ∃ e : V3, (e = c.segment.a ∨ e = c.segment.b) ∧
      dir.normalize.dot e =
        max (dir.normalize.dot c.segment.a) (dir.normalize.dot c.segment.b) ∧
      c.local_support_point dir = e + c.radius • dir.normalize) ∧
    (dir = V3.zero →
      c.local_support_point dir = c.local_support_point_toward V3.yAxis) := by
  constructor
  · intro hne
    unfold Capsule.local_support_point Capsule.local_support_point_toward
    rw [if_neg hne]
    by_cases h : dir.normalize.dot c.segment.a > dir.normalize.dot c.segment.b
    · exact ⟨c.segment.a, Or.inl rfl, by rw [max_eq_left h.le], by rw [if_pos h]⟩
    · exact ⟨c.segment.b, Or.inr rfl,
        by rw [max_eq_right (not_lt.1 h)], by rw [if_neg h]⟩
  · intro h0
    unfold Capsule.local_support_point
    rw [if_pos h0]

/-- Witness for C3 at the capsule `new_x 1 (1/2)` and direction `x`. -/
theorem C3_witness :
    (∃ e : V3, (e = (Capsule.new_x 1 (1/2)).segment.a ∨
        e = (Capsule.new_x 1 (1/2)).segment.b) ∧
      V3.xAxis.normalize.dot e =
        max (V3.xAxis.normalize.dot (Capsule.new_x 1 (1/2)).segment.a)
          (V3.xAxis.normalize.dot (Capsule.new_x 1 (1/2)).segment.b) ∧
      (Capsule.new_x 1 (1/2)).local_support_point V3.xAxis =
        e + (Capsule.new_x 1 (1/2)).radius • V3.xAxis.normalize) ∧
    ((Capsule.new_x 1 (1/2)).local_support_point V3.zero =
      (Capsule.new_x 1 (1/2)).local_support_point_toward V3.yAxis) := by
  refine ⟨(C3_local_support_point (Capsule.new_x 1 (1/2)) V3.xAxis).1 ?_,
    (C3_local_support_point (Capsule.new_x 1 (1/2)) V3.zero).2 rfl⟩
  intro h
  have := congrArg V3.x h
  simp [V3.xAxis, V3.zero] at this

/-- C1: for every pose `m`, query point `pt`, and solid flag, when the
offset `d = pt - proj` (with `proj` the projection of `pt` onto the
capsule's segment under pose `m`) is normalizable (norm strictly above the
machine epsilon), `project_point` returns `pt` unchanged marked inside when
`solid` holds and `|d| ≤ radius`, and otherwise returns
`proj + normalize(d) · radius` marked with `inside = (|d| ≤ radius)`; in
particular for the capsule `new_x(1.0, 0.5)` the query point `(3,0,0)`
projects to `(1.5,0,0)` with `inside = false`. -/
theorem C1_project_point_normalizable :
    (∀ (c : Capsule) (m : Iso) (pt : V3) (solid : Bool) (proj : V3),
      proj = (Segment.new c.segment.a c.segment.b).project_point m pt solid →
      f32_default_epsilon < (pt - proj).norm →
      c.project_point m pt solid =
        if solid = true ∧ (pt - proj).norm ≤ c.radius then
          PointProjection.new True pt
        else
          PointProjection.new ((pt - proj).norm ≤ c.radius)
            (proj + c.radius • (pt - proj).normalize)) ∧
    (∀ solid : Bool,
      ((Capsule.new_x 1 (1/2)).project_point Iso.identity ⟨3, 0, 0⟩
          solid).point = ⟨3/2, 0, 0⟩ ∧
      ¬ ((Capsule.new_x 1 (1/2)).project_point Iso.identity ⟨3, 0, 0⟩
          solid).is_inside) := by
  have part1 : ∀ (c : Capsule) (m : Iso) (pt : V3) (solid : Bool) (proj : V3),
      proj = (Segment.new c.segment.a c.segment.b).project_point m pt solid →
      f32_default_epsilon < (pt - proj).norm →
      c.project_point m pt solid =
        if solid = true ∧ (pt - proj).norm ≤ c.radius then
          PointProjection.new True pt
        else
          PointProjection.new ((pt - proj).norm ≤ c.radius)
            (proj + c.radius • (pt - proj).normalize) := by
    intro c m pt solid proj hproj hnorm
    subst hproj
    unfold Capsule.project_point
    rw [if_pos hnorm]
  refine ⟨part1, ?_⟩
  intro solid
  have hradius : (Capsule.new_x 1 (1/2)).radius = 1/2 := rfl
  have hd : (⟨3, 0, 0⟩ : V3) - ⟨1, 0, 0⟩ = V3.mk 2 0 0 := by
    simp; norm_num
  have hn2 : ((⟨3, 0, 0⟩ : V3) - ⟨1, 0, 0⟩).norm = 2 := by rw [hd, norm_two_x]
  have heps : f32_default_epsilon < ((⟨3, 0, 0⟩ : V3) - ⟨1, 0, 0⟩).norm := by
    rw [hn2, f32_default_epsilon]; norm_num
  have hres := part1 (Capsule.new_x 1 (1/2)) Iso.identity ⟨3, 0, 0⟩ solid
    ⟨1, 0, 0⟩ (scenario_seg_proj solid).symm heps
  rw [if_neg (by rw [hn2, hradius]; rintro ⟨-, hc⟩; norm_num at hc)] at hres
  rw [hres]
  constructor
  · show (⟨1, 0, 0⟩ : V3) + (Capsule.new_x 1 (1/2)).radius •
        ((⟨3, 0, 0⟩ : V3) - ⟨1, 0, 0⟩).normalize = ⟨3/2, 0, 0⟩
    rw [hradius, hd, normalize_two_x]
    simp
    norm_num
  · show ¬ ((⟨3, 0, 0⟩ : V3) - ⟨1, 0, 0⟩).norm ≤ (Capsule.new_x 1 (1/2)).radius
    rw [hn2, hradius]
    norm_num

/-- Witness for C1 at the capsule `new_x 1 (1/2)`, identity pose, query
point `(3,0,0)`, hollow query. -/
theorem C1_witness :
    (Capsule.new_x 1 (1/2)).project_point Iso.identity ⟨3, 0, 0⟩ false =
      if false = true ∧ ((⟨3, 0, 0⟩ : V3) - ⟨1, 0, 0⟩).norm ≤
          (Capsule.new_x 1 (1/2)).radius then
        PointProjection.new True ⟨3, 0, 0⟩
      else
        PointProjection.new
          (((⟨3, 0, 0⟩ : V3) - ⟨1, 0, 0⟩).norm ≤ (Capsule.new_x 1 (1/2)).radius)
          ((⟨1, 0, 0⟩ : V3) + (Capsule.new_x 1 (1/2)).radius •
            ((⟨3, 0, 0⟩ : V3) - ⟨1, 0, 0⟩).normalize) :=
  C1_project_point_normalizable.1 (Capsule.new_x 1 (1/2)) Iso.identity
    ⟨3, 0, 0⟩ false ⟨1, 0, 0⟩ (scenario_seg_proj false).symm
    (by
      rw [show ((⟨3, 0, 0⟩ : V3) - ⟨1, 0, 0⟩) = V3.mk 2 0 0 by simp; norm_num,
        norm_two_x, f32_default_epsilon]
      norm_num)

/-- C2: for every pose `m` and query point `pt` whose offset from its
segment projection is not normalizable (norm at most the machine epsilon):
with `solid` set, `project_point` returns `pt` unchanged marked inside;
queried as hollow it returns `proj + fallback · radius` marked inside,
where the fallback is the pose-rotated first vector of the segment
direction's orthonormal-complement basis — a unit vector perpendicular to
the segment's own axis — or the canonical `y` axis when the segment
degenerates to a point. For `new_x(1.0, 0.5)` and point `(0,0,0)`: solid
gives `(0,0,0)` marked inside; hollow gives a point at distance exactly
`0.5` from `(0,0,0)`, marked inside. -/
theorem C2_project_point_on_axis :
    (∀ (c : Capsule) (m : Iso) (pt : V3) (solid : Bool) (proj : V3),
      proj = (Segment.new c.segment.a c.segment.b).project_point m pt solid →
      (pt - proj).norm ≤ f32_default_epsilon →
      (solid = true →
        c.project_point m pt solid = PointProjection.new True pt) ∧
      (solid = false →
        (∀ dv : V3,
          (Segment.new c.segment.a c.segment.b).direction = some dv →
          c.project_point m pt solid =
            PointProjection.new True
              (proj + c.radius • m.applyVector (orthonormal_basis0 dv)) ∧
          (orthonormal_basis0 dv).dot (c.segment.b - c.segment.a) = 0 ∧
          (orthonormal_basis0 dv).norm = 1) ∧
        ((Segment.new c.segment.a c.segment.b).direction = none →
          c.project_point m pt solid =
            PointProjection.new True (proj + c.radius • V3.yAxis)))) ∧
    (((Capsule.new_x 1 (1/2)).project_point Iso.identity ⟨0, 0, 0⟩
        true).point = ⟨0, 0, 0⟩ ∧
      ((Capsule.new_x 1 (1/2)).project_point Iso.identity ⟨0, 0, 0⟩
        true).is_inside) ∧
    ((((Capsule.new_x 1 (1/2)).project_point Iso.identity ⟨0, 0, 0⟩
          false).point - ⟨0, 0, 0⟩).norm = 1/2 ∧
      ((Capsule.new_x 1 (1/2)).project_point Iso.identity ⟨0, 0, 0⟩
        false).is_inside) := by
  have part1 : ∀ (c : Capsule) (m : Iso) (pt : V3) (solid : Bool) (proj : V3),
      proj = (Segment.new c.segment.a c.segment.b).project_point m pt solid →
      (pt - proj).norm ≤ f32_default_epsilon →
      (solid = true →
        c.project_point m pt solid = PointProjection.new True pt) ∧
      (solid = false →
        (∀ dv : V3,
          (Segment.new c.segment.a c.segment.b).direction = some dv →
          c.project_point m pt solid =
            PointProjection.new True
              (proj + c.radius • m.applyVector (orthonormal_basis0 dv)) ∧
          (orthonormal_basis0 dv).dot (c.segment.b - c.segment.a) = 0 ∧
          (orthonormal_basis0 dv).norm = 1) ∧
        ((Segment.new c.segment.a c.segment.b).direction = none →
          c.project_point m pt solid =
            PointProjection.new True (proj + c.radius • V3.yAxis))) := by
    intro c m pt solid proj hproj hle
    constructor
    · intro hs
      subst hs
      unfold Capsule.project_point
      rw [← hproj, if_neg (not_lt.2 hle), if_pos rfl]
    · intro hs
      subst hs
      constructor
      · intro dv hdv
        have hba : c.segment.b - c.segment.a ≠ V3.zero := by
          intro h0
          unfold Segment.direction at hdv
          rw [Segment.new] at hdv
          simp only at hdv
          rw [if_pos h0] at hdv
          exact Option.noConfusion hdv
        have hdv' : dv = (c.segment.b - c.segment.a).normalize := by
          unfold Segment.direction at hdv
          rw [Segment.new] at hdv
          simp only at hdv
          rw [if_neg hba] at hdv
          exact (Option.some.inj hdv).symm
        refine ⟨?_, ?_, ?_⟩
        · unfold Capsule.project_point
          rw [← hproj, if_neg (not_lt.2 hle), if_neg (by simp), hdv]
        · have h0 := orthonormal_basis0_dot dv
          nth_rewrite 2 [hdv'] at h0
          rw [V3.normalize, V3.dot_smul_right] at h0
          rcases mul_eq_zero.1 h0 with hk | hgoal
          · exact absurd hk
              (inv_ne_zero (ne_of_gt (V3.norm_pos_of_ne_zero hba)))
          · exact hgoal
        · rw [hdv']
          exact orthonormal_basis0_norm _ (norm_normalize hba)
      · intro hdv
        unfold Capsule.project_point
        rw [← hproj, if_neg (not_lt.2 hle), if_neg (by simp), hdv]
  refine ⟨part1, ?_, ?_⟩
  · have h := (part1 (Capsule.new_x 1 (1/2)) Iso.identity ⟨0, 0, 0⟩ true
      ⟨0, 0, 0⟩ (scenario0_seg_proj true).symm
      (by rw [show ((⟨0,0,0⟩ : V3) - ⟨0,0,0⟩) = V3.mk 0 0 0 by simp,
        norm_zero_vec, f32_default_epsilon]; norm_num)).1 rfl
    rw [h]
    exact ⟨rfl, trivial⟩
  · have h := ((part1 (Capsule.new_x 1 (1/2)) Iso.identity ⟨0, 0, 0⟩ false
      ⟨0, 0, 0⟩ (scenario0_seg_proj false).symm
      (by rw [show ((⟨0,0,0⟩ : V3) - ⟨0,0,0⟩) = V3.mk 0 0 0 by simp,
        norm_zero_vec, f32_default_epsilon]; norm_num)).2 rfl).1
      ⟨1, 0, 0⟩ scenario_direction
    rw [h.1]
    constructor
    · rw [show (PointProjection.new True ((⟨0,0,0⟩ : V3) +
          (Capsule.new_x 1 (1/2)).radius •
            Iso.identity.applyVector (orthonormal_basis0 ⟨1, 0, 0⟩))).point -
          (⟨0,0,0⟩ : V3) = V3.mk 0 (1/2) 0 by
        rw [PointProjection.new]
        simp only [obasis_x, Iso.identity_applyVector]
        show (⟨0,0,0⟩ : V3) + (1/2 : ℝ) • (⟨0,1,0⟩ : V3) - ⟨0,0,0⟩ =
          V3.mk 0 (1/2) 0
        simp]
      exact norm_half_y
    · exact trivial

/-- Witness for C2 at the capsule `new_x 1 (1/2)`, identity pose, the
on-axis query point `(0,0,0)`, solid query. -/
theorem C2_witness :
    (Capsule.new_x 1 (1/2)).project_point Iso.identity ⟨0, 0, 0⟩ true =
      PointProjection.new True ⟨0, 0, 0⟩ :=
  (C2_project_point_on_axis.1 (Capsule.new_x 1 (1/2)) Iso.identity ⟨0, 0, 0⟩
    true ⟨0, 0, 0⟩ (scenario0_seg_proj true).symm
    (by rw [show ((⟨0,0,0⟩ : V3) - ⟨0,0,0⟩) = V3.mk 0 0 0 by simp,
      norm_zero_vec, f32_default_epsilon]; norm_num)).1 rfl

/-- C8: for every pose and query point, `project_point_with_feature`
returns the single constant feature identifier `FeatureId::Face(0)` (the
capsule's curved surface), and its projection component is exactly
`project_point` evaluated with `solid = false`. -/
theorem C8_project_point_with_feature (c : Capsule) (m : Iso) (pt : V3) :
    c.project_point_with_feature m pt =
      (c.project_point m pt false, FeatureId.Face 0) := rfl

/-- C7: `toi_and_normal_with_ray` returns a hit exactly when the external
support-map ray-cast algorithm, invoked with the identity pose on the ray
inverse-transformed into the capsule's local frame, returns a hit; the time
of impact is passed through unchanged and the normal is rotated by the
pose's rotation component only (translation is not applied); no hit yields
`none`, not an error. -/
theorem C7_ray_cast_delegation
    (algo : Iso → Capsule → Ray → ℝ → Bool → Option RayIntersection)
    (c : Capsule) (m : Iso) (ray : Ray) (max_toi : ℝ) (solid : Bool) :
    (Capsule.toi_and_normal_with_ray algo c m ray max_toi solid = none ↔
      algo Iso.identity c (ray.inverse_transform_by m) max_toi solid =
        none) ∧
    (∀ res : RayIntersection,
      algo Iso.identity c (ray.inverse_transform_by m) max_toi solid =
        some res →
      Capsule.toi_and_normal_with_ray algo c m ray max_toi solid =
        some ⟨res.toi, m.applyVector res.normal⟩) := by
  unfold Capsule.toi_and_normal_with_ray
  constructor
  · cases h : algo Iso.identity c (ray.inverse_transform_by m) max_toi
        solid <;> simp [h]
  · intro res hres
    rw [hres]
    rfl

/-- Witness for C7: a constant external algorithm reporting a hit at time 1
with normal `y`, under the identity pose. -/
theorem C7_witness :
    Capsule.toi_and_normal_with_ray
        (fun _ _ _ _ _ => some ⟨1, V3.yAxis⟩)
        (Capsule.new_x 1 (1/2)) Iso.identity ⟨⟨0, 5, 0⟩, ⟨0, -1, 0⟩⟩ 100
        true =
      some ⟨(1 : ℝ), Iso.identity.applyVector V3.yAxis⟩ :=
  (C7_ray_cast_delegation (fun _ _ _ _ _ => some ⟨1, V3.yAxis⟩)
    (Capsule.new_x 1 (1/2)) Iso.identity ⟨⟨0, 5, 0⟩, ⟨0, -1, 0⟩⟩ 100
    true).2 ⟨1, V3.yAxis⟩ rfl

lemma convex_comb_bounds (a b t : ℝ) (h0 : 0 ≤ t) (h1 : t ≤ 1) :
    min a b ≤ a + t * (b - a) ∧ a + t * (b - a) ≤ max a b := by
  constructor
  · rcases le_total a b with h | h
    · rw [min_eq_left h]; nlinarith
    · rw [min_eq_right h]; nlinarith
  · rcases le_total a b with h | h
    · rw [max_eq_right h]; nlinarith
    · rw [max_eq_left h]; nlinarith

/-- C5: `aabb(pose)` is the box with minimum the componentwise minimum of
the transformed endpoints minus `radius` on every axis and maximum the
componentwise maximum plus `radius`; it contains the whole transformed
capsule, and contains both transformed endpoints inflated by `radius` on
every axis. -/
theorem C5_aabb_contains (c : Capsule) (pos : Iso) :
    (c.aabb pos = AABB.new
        ⟨min (pos.applyPoint c.segment.a).x (pos.applyPoint c.segment.b).x -
            c.radius,
          min (pos.applyPoint c.segment.a).y
            (pos.applyPoint c.segment.b).y - c.radius,
          min (pos.applyPoint c.segment.a).z
            (pos.applyPoint c.segment.b).z - c.radius⟩
        ⟨max (pos.applyPoint c.segment.a).x (pos.applyPoint c.segment.b).x +
            c.radius,
          max (pos.applyPoint c.segment.a).y
            (pos.applyPoint c.segment.b).y + c.radius,
          max (pos.applyPoint c.segment.a).z
            (pos.applyPoint c.segment.b).z + c.radius⟩) ∧
    (∀ p : V3, (c.transform_by pos).mem p → (c.aabb pos).contains p) ∧
    ((c.aabb pos).mins.le
        (pos.applyPoint c.segment.a - ⟨c.radius, c.radius, c.radius⟩) ∧
      (pos.applyPoint c.segment.a + ⟨c.radius, c.radius, c.radius⟩).le
        (c.aabb pos).maxs ∧
      (c.aabb pos).mins.le
        (pos.applyPoint c.segment.b - ⟨c.radius, c.radius, c.radius⟩) ∧
      (pos.applyPoint c.segment.b + ⟨c.radius, c.radius, c.radius⟩).le
        (c.aabb pos).maxs) := by
  refine ⟨rfl, ?_, ?_⟩
  · rintro p ⟨t, ht0, ht1, hd⟩
    have hd' : (p - (pos.applyPoint c.segment.a +
        t • (pos.applyPoint c.segment.b - pos.applyPoint c.segment.a))).norm
        ≤ c.radius := hd
    have hx := le_trans (V3.abs_x_le_norm _) hd'
    have hy := le_trans (V3.abs_y_le_norm _) hd'
    have hz := le_trans (V3.abs_z_le_norm _) hd'
    simp only [V3.sub_def, V3.add_def, V3.smul_def] at hx hy hz
    rw [abs_le] at hx hy hz
    have hcx := convex_comb_bounds (pos.applyPoint c.segment.a).x
      (pos.applyPoint c.segment.b).x t ht0 ht1
    have hcy := convex_comb_bounds (pos.applyPoint c.segment.a).y
      (pos.applyPoint c.segment.b).y t ht0 ht1
    have hcz := convex_comb_bounds (pos.applyPoint c.segment.a).z
      (pos.applyPoint c.segment.b).z t ht0 ht1
    unfold Capsule.aabb AABB.new AABB.contains V3.le
    constructor
    · refine ⟨?_, ?_, ?_⟩
      · have := hx.1; have := hcx.1; simp only at *; linarith
      · have := hy.1; have := hcy.1; simp only at *; linarith
      · have := hz.1; have := hcz.1; simp only at *; linarith
    · refine ⟨?_, ?_, ?_⟩
      · have := hx.2; have := hcx.2; simp only at *; linarith
      · have := hy.2; have := hcy.2; simp only at *; linarith
      · have := hz.2; have := hcz.2; simp only at *; linarith
  · unfold Capsule.aabb AABB.new V3.le
    simp only [V3.sub_def, V3.add_def]
    refine ⟨⟨?_, ?_, ?_⟩, ⟨?_, ?_, ?_⟩, ⟨?_, ?_, ?_⟩, ⟨?_, ?_, ?_⟩⟩ <;>
      first
        | exact sub_le_sub_right (min_le_left _ _) _
        | exact sub_le_sub_right (min_le_right _ _) _
        | exact add_le_add_right (le_max_left _ _) _
        | exact add_le_add_right (le_max_right _ _) _

/-- Witness for C5: the origin belongs to the `x`-aligned capsule
`new_x 1 (1/2)` under the identity pose, so its box contains the origin. -/
theorem C5_witness :
    ((Capsule.new_x 1 (1/2)).aabb Iso.identity).contains ⟨0, 0, 0⟩ := by
  refine (C5_aabb_contains (Capsule.new_x 1 (1/2)) Iso.identity).2.1
    ⟨0, 0, 0⟩ ⟨1/2, by norm_num, by norm_num, ?_⟩
  show ((⟨0, 0, 0⟩ : V3) -
      (((Capsule.new_x 1 (1/2)).transform_by Iso.identity).segment.a +
        (1/2 : ℝ) •
          (((Capsule.new_x 1 (1/2)).transform_by Iso.identity).segment.b -
            ((Capsule.new_x 1 (1/2)).transform_by
              Iso.identity).segment.a))).norm ≤
    ((Capsule.new_x 1 (1/2)).transform_by Iso.identity).radius
  rw [show (⟨0, 0, 0⟩ : V3) -
      (((Capsule.new_x 1 (1/2)).transform_by Iso.identity).segment.a +
        (1/2 : ℝ) •
          (((Capsule.new_x 1 (1/2)).transform_by Iso.identity).segment.b -
            ((Capsule.new_x 1 (1/2)).transform_by
              Iso.identity).segment.a)) = V3.mk 0 0 0 by
    simp [Capsule.new_x, Capsule.new, Capsule.transform_by, Segment.new,
      Iso.identity, Iso.applyPoint, Mat3.id, Mat3.apply, V3.xAxis, V3.zero]
    norm_num]
  rw [norm_zero_vec]
  show (0 : ℝ) ≤ (1/2 : ℝ)
  norm_num

/-- C4: for every direction `dir` and every point `p` of the capsule (at
distance at most `radius` from the segment), the support point maximizes
the dot product with `dir` over the whole capsule:
`dot(local_support_point(dir), dir) ≥ dot(p, dir)`. -/
theorem C4_support_point_maximal (c : Capsule) (dir p : V3)
    (hp : c.mem p) : p.dot dir ≤ (c.local_support_point dir).dot dir := by
  rcases hp with ⟨t, ht0, ht1, hd⟩
  by_cases hz : dir = V3.zero
  · subst hz
    rw [V3.dot_zero_right, V3.dot_zero_right]
  · unfold Capsule.local_support_point Capsule.local_support_point_toward
    rw [if_neg hz]
    have hnp : 0 < dir.norm := V3.norm_pos_of_ne_zero hz
    have hu_dot : dir.normalize.dot dir = dir.norm := by
      rw [V3.normalize, V3.dot_smul_left, V3.dot_self_eq_normSq,
        ← dir.norm_sq]
      field_simp
    have hdot_u : ∀ v : V3, dir.normalize.dot v = dir.norm⁻¹ * v.dot dir := by
      intro v
      rw [V3.normalize, V3.dot_smul_left, V3.dot_comm]
    have hsplit : p.dot dir =
        (p - (c.segment.a + t • (c.segment.b - c.segment.a))).dot dir +
        (c.segment.a + t • (c.segment.b - c.segment.a)).dot dir := by
      rw [V3.dot_sub_left]; ring
    have hCS := V3.dot_le_norm_mul_norm
      (p - (c.segment.a + t • (c.segment.b - c.segment.a))) dir
    have h1 : (p - (c.segment.a + t • (c.segment.b - c.segment.a))).dot dir
        ≤ c.radius * dir.norm :=
      le_trans hCS (mul_le_mul_of_nonneg_right hd (V3.norm_nonneg dir))
    have hs_eq : (c.segment.a + t • (c.segment.b - c.segment.a)).dot dir =
        c.segment.a.dot dir +
          t * (c.segment.b.dot dir - c.segment.a.dot dir) := by
      rw [V3.dot_add_left, V3.dot_smul_left, V3.dot_sub_left]
    have hs_le : (c.segment.a + t • (c.segment.b - c.segment.a)).dot dir ≤
        max (c.segment.a.dot dir) (c.segment.b.dot dir) := by
      rw [hs_eq]
      exact (convex_comb_bounds _ _ t ht0 ht1).2
    by_cases hbr : dir.normalize.dot c.segment.a > dir.normalize.dot c.segment.b
    · rw [if_pos hbr, V3.dot_add_left, V3.dot_smul_left, hu_dot]
      have hab : c.segment.b.dot dir ≤ c.segment.a.dot dir := by
        rw [hdot_u, hdot_u] at hbr
        have := (mul_lt_mul_left (inv_pos.2 hnp)).1 hbr
        linarith
      rw [max_eq_left hab] at hs_le
      linarith
    · rw [if_neg hbr, V3.dot_add_left, V3.dot_smul_left, hu_dot]
      have hab : c.segment.a.dot dir ≤ c.segment.b.dot dir := by
        rw [not_lt, hdot_u, hdot_u] at hbr
        exact (mul_le_mul_left (inv_pos.2 hnp)).1 hbr
      rw [max_eq_right hab] at hs_le
      linarith

/-- Witness for C4: the origin belongs to `new_x 1 (1/2)`; its dot product
with `x` is dominated by the support point's. -/
theorem C4_witness :
    (V3.mk 0 0 0).dot V3.xAxis ≤
      ((Capsule.new_x 1 (1/2)).local_support_point V3.xAxis).dot V3.xAxis := by
  refine C4_support_point_maximal (Capsule.new_x 1 (1/2)) V3.xAxis
    ⟨0, 0, 0⟩ ⟨1/2, by norm_num, by norm_num, ?_⟩
  rw [show (⟨0, 0, 0⟩ : V3) -
      ((Capsule.new_x 1 (1/2)).segment.a +
        (1/2 : ℝ) •
          ((Capsule.new_x 1 (1/2)).segment.b -
            (Capsule.new_x 1 (1/2)).segment.a)) = V3.mk 0 0 0 by
    simp [Capsule.new_x, Capsule.new, Segment.new, V3.xAxis]
    norm_num]
  rw [norm_zero_vec]
  show (0 : ℝ) ≤ (1/2 : ℝ)
  norm_num

lemma seg_proj_degenerate (p : V3) (m : Iso) (pt : V3) (solid : Bool) :
    (Segment.new p p).project_point m pt solid = m.applyPoint p := by
  unfold Segment.project_point Segment.new
  rw [if_pos]
  rw [V3.sub_self_eq_zero]
  simp [V3.normSq, V3.zero]

lemma direction_degenerate (p : V3) : (Segment.new p p).direction = none := by
  unfold Segment.direction Segment.new
  rw [if_pos]
  exact V3.sub_self_eq_zero p

/-- C9: every operation of the capsule is a total function of its inputs in
this embedding, and each enumerated degenerate input — a zero-length
segment, a zero-length support direction, a query point exactly on the
segment's axis — takes an explicit, deterministic fallback branch with a
well-defined (never undefined) value: the degenerate capsule's metrics,
box, and transform are the sphere's; `rotation_wrt_y` falls back to the
identity; the zero direction falls back to the canonical `y` axis; the
on-axis projection returns the point itself (solid) or the canonical-axis
offset (hollow, degenerate segment). -/
theorem C9_degenerate_fallbacks (p : V3) (r : ℝ) (m : Iso) (c : Capsule) :
    (Capsule.new p p r).height = 0 ∧
    (Capsule.new p p r).half_height = 0 ∧
    (Capsule.new p p r).center = p ∧
    (Capsule.new p p r).transform_by m =
      Capsule.new (m.applyPoint p) (m.applyPoint p) r ∧
    (Capsule.new p p r).aabb m =
      AABB.new (m.applyPoint p - ⟨r, r, r⟩) (m.applyPoint p + ⟨r, r, r⟩) ∧
    (Capsule.new p p r).rotation_wrt_y = Mat3.id ∧
    c.local_support_point V3.zero = c.local_support_point_toward V3.yAxis ∧
    (Capsule.new p p r).project_point m (m.applyPoint p) true =
      PointProjection.new True (m.applyPoint p) ∧
    (Capsule.new p p r).project_point m (m.applyPoint p) false =
      PointProjection.new True (m.applyPoint p + r • V3.yAxis) := by
  have hseg_a : (Capsule.new p p r).segment.a = p := rfl
  have hseg_b : (Capsule.new p p r).segment.b = p := rfl
  have hdeg : (Capsule.new p p r).segment.b - (Capsule.new p p r).segment.a =
      V3.zero := V3.sub_self_eq_zero p
  refine ⟨?_, ?_, ?_, ?_, ?_, ?_, ?_, ?_, ?_⟩
  · unfold Capsule.height
    rw [hdeg, V3.norm_zero]
  · unfold Capsule.half_height Capsule.height
    rw [hdeg, V3.norm_zero]
    norm_num
  · unfold Capsule.center
    rw [hseg_a, hseg_b]
    ext <;> simp <;> ring
  · rfl
  · unfold Capsule.aabb AABB.new
    rw [hseg_a, hseg_b]
    ext <;> simp [Capsule.new]
  · unfold Capsule.rotation_wrt_y
    rw [hdeg]
    rw [if_neg (by rw [show (V3.zero).y = 0 from rfl]; norm_num)]
    unfold rotation_between
    rw [if_pos (Or.inr rfl)]
    rfl
  · unfold Capsule.local_support_point
    rw [if_pos rfl]
  · unfold Capsule.project_point
    rw [hseg_a, hseg_b, seg_proj_degenerate, V3.sub_self_eq_zero,
      V3.norm_zero]
    rw [if_neg (by rw [f32_default_epsilon]; norm_num), if_pos rfl]
  · unfold Capsule.project_point
    rw [hseg_a, hseg_b, seg_proj_degenerate, V3.sub_self_eq_zero,
      V3.norm_zero]
    rw [if_neg (by rw [f32_default_epsilon]; norm_num),
      if_neg (by simp), direction_degenerate]
    rfl

/-- Applying the Rodrigues matrix built by `rotation_between` from the `y`
axis to a target `w` sends the `y` axis exactly to `w`. -/
lemma rodrigues_y_apply (w : V3) (hc : V3.mk w.z 0 (-w.x) ≠ V3.zero) :
    (rodrigues (V3.mk w.z 0 (-w.x)).normalize w.y
      (V3.mk w.z 0 (-w.x)).norm).apply V3.yAxis = w := by
  have hs : (V3.mk w.z 0 (-w.x)).norm ≠ 0 :=
    ne_of_gt (V3.norm_pos_of_ne_zero hc)
  have hss : (V3.mk w.z 0 (-w.x)).norm * (V3.mk w.z 0 (-w.x)).norm =
      w.z * w.z + 0 * 0 + -w.x * -w.x := V3.norm_sq _
  unfold rodrigues Mat3.apply V3.normalize V3.yAxis
  ext
  · simp
    field_simp
  · simp
    field_simp
    linear_combination (1 - w.y) *
      ((V3.mk w.z 0 (-w.x)).norm * (V3.mk w.z 0 (-w.x)).norm) * hss
  · simp
    field_simp

lemma yAxis_ne_zero : V3.yAxis ≠ V3.zero := by
  intro h
  have := congrArg V3.y h
  simp [V3.yAxis, V3.zero] at this

/-- `rotation_between` from the `y` axis, completed by the identity on the
`None` case, always sends the `y` axis to a nonzero multiple of its target. -/
lemma rotation_between_y_apply (v : V3) (hv : v ≠ V3.zero) :
    ∃ k : ℝ, k ≠ 0 ∧
      ((rotation_between V3.yAxis v).getD Mat3.id).apply V3.yAxis = k • v := by
  have hnz : v.norm ≠ 0 := ne_of_gt (V3.norm_pos_of_ne_zero hv)
  unfold rotation_between
  rw [if_neg (by rintro (h | h); exacts [yAxis_ne_zero h, hv h])]
  rw [normalize_yAxis]
  have hcross : V3.yAxis.cross v.normalize =
      V3.mk v.normalize.z 0 (-v.normalize.x) := by
    ext <;> simp [V3.cross, V3.yAxis]
  have hdot : V3.yAxis.dot v.normalize = v.normalize.y := by
    simp [V3.dot, V3.yAxis]
  rw [hcross, hdot]
  by_cases hc : V3.mk v.normalize.z 0 (-v.normalize.x) = V3.zero
  · rw [if_pos hc]
    have hx0 : v.x = 0 := by
      have h := congrArg V3.z hc
      simp [V3.zero, V3.normalize] at h
      rcases h with h | h
      · exact absurd ((V3.norm_eq_zero_iff v).1 h) hv
      · exact h
    have hz0 : v.z = 0 := by
      have h := congrArg V3.x hc
      simp [V3.zero, V3.normalize] at h
      rcases h with h | h
      · exact absurd ((V3.norm_eq_zero_iff v).1 h) hv
      · exact h
    have hy : v.y ≠ 0 := by
      intro h0
      exact hv (by ext <;> simp [V3.zero, hx0, hz0, h0])
    refine ⟨v.y⁻¹, inv_ne_zero hy, ?_⟩
    have hid : ((if v.normalize.y < 0 then none else some Mat3.id).getD
        Mat3.id) = Mat3.id := by
      split_ifs <;> rfl
    rw [hid, Mat3.id_apply]
    ext
    · simp [V3.yAxis, hx0]
    · simp [V3.yAxis, inv_mul_cancel₀ hy]
    · simp [V3.yAxis, hz0]
  · rw [if_neg hc]
    refine ⟨v.norm⁻¹, inv_ne_zero hnz, ?_⟩
    rw [Option.getD_some]
    exact rodrigues_y_apply v.normalize hc

/-- C6 (amended): `rotation_wrt_y` is independent of the endpoint order
whenever the segment direction's `y` component is nonzero (the flip
normalisation fires on exactly one of the two orders); applying the result
to the `y` axis yields a nonzero multiple of `b - a` for every
non-degenerate segment; and a segment direction exactly antiparallel to
the `y` axis yields the identity rotation rather than a failure. -/
theorem C6_rotation_wrt_y_amended :
    (∀ (a b : V3) (r : ℝ), (b - a).y ≠ 0 →
      (Capsule.new a b r).rotation_wrt_y =
        (Capsule.new b a r).rotation_wrt_y) ∧
    (∀ (a b : V3) (r : ℝ), b - a ≠ V3.zero →
      ∃ k : ℝ, k ≠ 0 ∧
        ((Capsule.new a b r).rotation_wrt_y).apply V3.yAxis =
          k • (b - a)) ∧
    (∀ (a b : V3) (r t : ℝ), 0 < t → b - a = (-t) • V3.yAxis →
      (Capsule.new a b r).rotation_wrt_y = Mat3.id) := by
  refine ⟨?_, ?_, ?_⟩
  · intro a b r hy
    unfold Capsule.rotation_wrt_y
    have e1 : (Capsule.new a b r).segment.b -
        (Capsule.new a b r).segment.a = b - a := rfl
    have e2 : (Capsule.new b a r).segment.b -
        (Capsule.new b a r).segment.a = a - b := rfl
    rw [e1, e2, show a - b = -(b - a) by ext <;> simp]
    have hyval : (-(b - a)).y = -((b - a).y) := by simp
    rcases lt_or_gt_of_ne hy with hlt | hgt
    · rw [if_pos hlt, if_neg (by rw [hyval]; linarith)]
    · rw [if_neg (by linarith), if_pos (by rw [hyval]; linarith),
        show -(-(b - a)) = b - a by ext <;> simp]
  · intro a b r hba
    unfold Capsule.rotation_wrt_y
    have e1 : (Capsule.new a b r).segment.b -
        (Capsule.new a b r).segment.a = b - a := rfl
    rw [e1]
    split_ifs with hneg
    · have hnz : -(b - a) ≠ V3.zero := by
        intro h
        apply hba
        have : - -(b - a) = -V3.zero := congrArg Neg.neg h
        rw [show - -(b - a) = b - a by ext <;> simp,
          show -V3.zero = V3.zero by ext <;> simp [V3.zero]] at this
        exact this
      obtain ⟨k, hk, happ⟩ := rotation_between_y_apply (-(b - a)) hnz
      exact ⟨-k, neg_ne_zero.2 hk, by rw [happ]; ext <;> simp <;> ring⟩
    · exact rotation_between_y_apply (b - a) hba
  · intro a b r t ht hba
    unfold Capsule.rotation_wrt_y
    have e1 : (Capsule.new a b r).segment.b -
        (Capsule.new a b r).segment.a = b - a := rfl
    rw [e1, hba]
    rw [if_pos (by simp [V3.yAxis]; linarith)]
    rw [show -((-t) • V3.yAxis) = t • V3.yAxis by
      ext <;> simp [V3.yAxis]]
    unfold rotation_between
    rw [if_neg (by
      rintro (h | h)
      · exact yAxis_ne_zero h
      · have := congrArg V3.y h
        simp [V3.yAxis, V3.zero] at this
        linarith)]
    have hnorm : (t • V3.yAxis).norm = t := by
      rw [V3.norm_smul, norm_yAxis, abs_of_pos ht, mul_one]
    have hnn : (t • V3.yAxis).normalize = V3.yAxis := by
      rw [V3.normalize, hnorm]
      ext <;> simp [V3.yAxis]
      field_simp
    rw [normalize_yAxis, hnn]
    rw [if_pos (by ext <;> simp [V3.cross, V3.yAxis, V3.zero])]
    rw [if_neg (by simp [V3.dot, V3.yAxis])]
    rfl

/-- Witness for C6 (amended): the `y`-aligned unit segment, queried in
both endpoint orders, and the antiparallel direction collapsing to the
identity. -/
theorem C6_witness :
    ((Capsule.new ⟨0, 0, 0⟩ ⟨0, 2, 0⟩ 1).rotation_wrt_y =
      (Capsule.new ⟨0, 2, 0⟩ ⟨0, 0, 0⟩ 1).rotation_wrt_y) ∧
    (Capsule.new ⟨0, 1, 0⟩ ⟨0, 0, 0⟩ 1).rotation_wrt_y = Mat3.id := by
  constructor
  · refine C6_rotation_wrt_y_amended.1 ⟨0, 0, 0⟩ ⟨0, 2, 0⟩ 1 ?_
    simp
  · refine C6_rotation_wrt_y_amended.2.2 ⟨0, 1, 0⟩ ⟨0, 0, 0⟩ 1 1
      (by norm_num) ?_
    ext <;> simp [V3.yAxis]

lemma norm_neg_unit_z : (V3.mk 0 0 (-1)).norm = 1 := by
  rw [V3.norm, V3.normSq]
  norm_num

lemma norm_unit_z : (V3.mk 0 0 1).norm = 1 := by
  rw [V3.norm, V3.normSq]
  norm_num

lemma norm_neg_unit_x : (V3.mk (-1) 0 0).norm = 1 := by
  rw [V3.norm, V3.normSq]
  norm_num

lemma rotation_wrt_y_pos_x :
    (Capsule.new ⟨0, 0, 0⟩ ⟨1, 0, 0⟩ 1).rotation_wrt_y =
      rodrigues ⟨0, 0, -1⟩ 0 1 := by
  unfold Capsule.rotation_wrt_y
  rw [show (Capsule.new ⟨0, 0, 0⟩ ⟨1, 0, 0⟩ 1).segment.b -
      (Capsule.new ⟨0, 0, 0⟩ ⟨1, 0, 0⟩ 1).segment.a = V3.xAxis by
    ext <;> simp [Capsule.new, Segment.new, V3.xAxis]]
  rw [if_neg (by simp [V3.xAxis])]
  unfold rotation_between
  rw [if_neg (by
    rintro (h | h)
    · exact yAxis_ne_zero h
    · have := congrArg V3.x h
      simp [V3.xAxis, V3.zero] at this)]
  rw [normalize_yAxis, normalize_xAxis]
  rw [show V3.yAxis.cross V3.xAxis = V3.mk 0 0 (-1) by
    ext <;> simp [V3.cross, V3.yAxis, V3.xAxis]]
  rw [if_neg (by
    intro h
    have := congrArg V3.z h
    simp [V3.zero] at this)]
  rw [show V3.yAxis.dot V3.xAxis = 0 by simp [V3.dot, V3.yAxis, V3.xAxis]]
  rw [show (V3.mk 0 0 (-1)).normalize = V3.mk 0 0 (-1) by
    rw [V3.normalize, norm_neg_unit_z]; ext <;> simp]
  rw [norm_neg_unit_z]
  rfl

lemma rotation_wrt_y_neg_x :
    (Capsule.new ⟨1, 0, 0⟩ ⟨0, 0, 0⟩ 1).rotation_wrt_y =
      rodrigues ⟨0, 0, 1⟩ 0 1 := by
  unfold Capsule.rotation_wrt_y
  rw [show (Capsule.new ⟨1, 0, 0⟩ ⟨0, 0, 0⟩ 1).segment.b -
      (Capsule.new ⟨1, 0, 0⟩ ⟨0, 0, 0⟩ 1).segment.a = V3.mk (-1) 0 0 by
    ext <;> simp [Capsule.new, Segment.new]]
  rw [if_neg (by simp)]
  unfold rotation_between
  rw [if_neg (by
    rintro (h | h)
    · exact yAxis_ne_zero h
    · have := congrArg V3.x h
      simp [V3.zero] at this)]
  rw [normalize_yAxis]
  rw [show (V3.mk (-1) 0 0).normalize = V3.mk (-1) 0 0 by
    rw [V3.normalize, norm_neg_unit_x]; ext <;> simp]
  rw [show V3.yAxis.cross (V3.mk (-1) 0 0) = V3.mk 0 0 1 by
    ext <;> simp [V3.cross, V3.yAxis]]
  rw [if_neg (by
    intro h
    have := congrArg V3.z h
    simp [V3.zero] at this)]
  rw [show V3.yAxis.dot (V3.mk (-1) 0 0) = 0 by simp [V3.dot, V3.yAxis]]
  rw [show (V3.mk 0 0 1).normalize = V3.mk 0 0 1 by
    rw [V3.normalize, norm_unit_z]; ext <;> simp]
  rw [norm_unit_z]
  rfl

/-- C6 counterexample: for the x-aligned unit segment — whose direction has
`y` component exactly `0`, so the flip normalisation fires in neither
order — `rotation_wrt_y` differs between `Capsule(a, b, r)` and
`Capsule(b, a, r)`, refuting order-independence as claimed. -/
theorem C6_counterexample :
    (Capsule.new ⟨0, 0, 0⟩ ⟨1, 0, 0⟩ 1).rotation_wrt_y ≠
      (Capsule.new ⟨1, 0, 0⟩ ⟨0, 0, 0⟩ 1).rotation_wrt_y := by
  rw [rotation_wrt_y_pos_x, rotation_wrt_y_neg_x]
  intro h
  have h12 := congrArg Mat3.m12 h
  simp [rodrigues] at h12
  norm_num at h12

/-- C10: a tie in the endpoint dot products deterministically selects
endpoint `b` (the comparison is strict), and consequently the support point
of `Capsule(a, b, r)` and `Capsule(b, a, r)` can differ for tie directions:
they do for the `x`-aligned unit capsule and the perpendicular direction
`y`. -/
theorem C10_support_tie :
    (∀ (c : Capsule) (u : V3), u.dot c.segment.a = u.dot c.segment.b →
      c.local_support_point_toward u = c.segment.b + c.radius • u) ∧
    Capsule.local_support_point_toward
        (Capsule.new ⟨-1, 0, 0⟩ ⟨1, 0, 0⟩ (1/2)) V3.yAxis ≠
      Capsule.local_support_point_toward
        (Capsule.new ⟨1, 0, 0⟩ ⟨-1, 0, 0⟩ (1/2)) V3.yAxis := by
  constructor
  · intro c u htie
    unfold Capsule.local_support_point_toward
    rw [if_neg (by rw [htie]; exact lt_irrefl _)]
  · intro h
    have hx := congrArg V3.x h
    simp [Capsule.local_support_point_toward, Capsule.new, Segment.new,
      V3.yAxis, V3.dot] at hx
    norm_num at hx

/-- Witness for C10's universally quantified tie rule, at the
`x`-aligned capsule and the perpendicular direction `y`. -/
theorem C10_witness :
    Capsule.local_support_point_toward
        (Capsule.new ⟨-1, 0, 0⟩ ⟨1, 0, 0⟩ (1/2)) V3.yAxis =
      (⟨1, 0, 0⟩ : V3) + (1/2 : ℝ) • V3.yAxis := by
  have h := C10_support_tie.1 (Capsule.new ⟨-1, 0, 0⟩ ⟨1, 0, 0⟩ (1/2)) V3.yAxis
    (by simp [Capsule.new, Segment.new, V3.yAxis, V3.dot])
  simpa [Capsule.new, Segment.new] using h

end Rapier
